import Mathlib

/-!
Shallow embedding of the LPGNN privacy-preserving transform pipeline
(src/transforms.py) and of the degree-bucketed error estimator
(src/error.py), together with proofs of the specification claims.

Conventions of the embedding:
* torch tensors of rationals are `List (List ℚ)` (matrices) or `List ℚ`
  (vectors); label tensors are `List ℤ`.
* python attribute mutation is explicit state passing; the in-place
  indexed assignment `data.y[mask] = v` on label tensors is modelled with
  an explicit store of tensor cells, so that aliasing vs `clone()` is
  observable (LabelPerturbation uses `clone`, and the claims are about
  exactly that).
* the external LDP mechanisms and the random draws of `torch.rand` are
  opaque parameters; randomness is an externally supplied stream indexed
  by the call number.
* IEEE float division is modelled over ℚ; the division-by-zero site of
  `LabelPerturbation.perturb` (`value = 1 / deg`) is exposed by recording
  the list of denominators it consumes, so that "divides by zero" is the
  statement `0 ∈ denominators`.
-/

namespace LPGNN

/-! ## Generic list helpers (tensor access) -/

/-- Total list access with an explicit default, the value semantics of
tensor indexing in the embedding. -/
def nthD {α : Type} (d : α) : List α → ℕ → α
  | [], _ => d
  | a :: _, 0 => a
  | _ :: l, i + 1 => nthD d l i

/-- Matrices of rationals, the embedding of 2-d float tensors. -/
abbrev Mat := List (List ℚ)

/-- Minimum of a list of rationals (0 on the empty list; torch raises
there, and every use site is nonempty). Embeds `tensor.min()`. -/
def listMinD : List ℚ → ℚ
  | [] => 0
  | a :: t => t.foldl min a

/-- Maximum of a list of rationals. Embeds `tensor.max()`. -/
def listMaxD : List ℚ → ℚ
  | [] => 0
  | a :: t => t.foldl max a

/-- Global minimum of a matrix: `data.x.min().item()`. -/
def matMinQ (m : Mat) : ℚ := listMinD m.flatten

/-- Global maximum of a matrix: `data.x.max().item()`. -/
def matMaxQ (m : Mat) : ℚ := listMaxD m.flatten

/-- Column `j` of a matrix (entries default to 0 past a row's end). -/
def colOf (m : Mat) (j : ℕ) : List ℚ := m.map (fun r => nthD 0 r j)

/-- Per-column minimum: `x.min(dim=0)`. -/
def colMin (m : Mat) (j : ℕ) : ℚ := listMinD (colOf m j)

/-- Per-column maximum: `x.max(dim=0)`. -/
def colMax (m : Mat) (j : ℕ) : ℚ := listMaxD (colOf m j)

/-- Dot product of two rational vectors. -/
def dotQ (a b : List ℚ) : ℚ := (List.zipWith (fun x y => x * y) a b).sum

/-- Matrix product, the embedding of `a.matmul(b)` and of
`torch_sparse.matmul(a, b, reduce='sum')`. -/
def matMulQ (a b : Mat) : Mat :=
  a.map (fun row => (List.range (b.headD []).length).map (fun j => dotQ row (colOf b j)))

/-- Row sums of a matrix: `adj.sum(dim=1)`. -/
def rowSums (m : Mat) : List ℚ := m.map List.sum

/-! ## FeaturePerturbation (src/transforms.py lines 38-73)

The mechanism registry entry `supported_feature_mechanisms[mx](eps,
input_range)` is an external opaque callable; its randomness is a stream
indexed by the call number.  `torch.rand(input_dim, output_dim)` inside
`RandomizedProjection.__init__` draws from the stream `projDraws`: the
`k`-th invocation of `FeaturePerturbation.__call__` constructs its
projection from `projDraws k`. -/

/-- Configuration and external collaborators of a `FeaturePerturbation`
instance. -/
structure FPParams where
  epsX : Option ℚ
  reduceDim : Option ℕ
  mechs : ℕ → ℚ → ℚ × ℚ → Mat → Mat
  projDraws : ℕ → Mat

/-- The dataset fields touched by feature perturbation: the attribute
matrix `x` and the lazily injected backup attribute `x_raw`. -/
structure FPData where
  x : Mat
  xRaw : Option Mat

/-- The mutable state held by the `FeaturePerturbation` object itself:
`self.input_range` (set once when `data_range` was not supplied). -/
structure FPState where
  inputRange : Option (ℚ × ℚ)

/-- Result of one invocation, instrumented with the exact arguments
handed to the external mechanism (the attribute matrix after the
optional projection, and the value range). -/
structure FPCallLog where
  st : FPState
  d : FPData
  mechArg : Option Mat
  rangeArg : Option (ℚ × ℚ)

/-- The optional `RandomizedProjection` application of call `k`:
`data.x.matmul(w)` with `w` freshly drawn (`torch.rand`) for this call. -/
def projApply (P : FPParams) (k : ℕ) (x : Mat) : Mat :=
  match P.reduceDim with
  | none => x
  | some _ => matMulQ x (P.projDraws k)

/-- One invocation of `FeaturePerturbation.__call__` (call number `k`),
translated line by line from src/transforms.py lines 53-73. -/
def fpCall (P : FPParams) (k : ℕ) (st : FPState) (d : FPData) : FPCallLog :=
  match P.epsX with
  | none => ⟨st, d, none, none⟩
  | some e =>
    let d1 : FPData :=
      match d.xRaw with
      | none => { d with xRaw := some d.x }
      | some xr => { d with x := xr }
    let st1 : FPState :=
      match st.inputRange with
      | none => ⟨some (matMinQ d1.x, matMaxQ d1.x)⟩
      | some _ => st
    let x2 := projApply P k d1.x
    let r := st1.inputRange.getD (0, 0)
    ⟨st1, { x := P.mechs k e r x2, xRaw := d1.xRaw }, some x2, some r⟩

/-- State after `n` invocations of the same instance on the same dataset
object. -/
def fpSteps (P : FPParams) (st0 : FPState) (d0 : FPData) : ℕ → FPState × FPData
  | 0 => (st0, d0)
  | n + 1 =>
    let p := fpSteps P st0 d0 n
    let L := fpCall P n p.1 p.2
    (L.st, L.d)

/-- Instrumented log of invocation number `n` (0-indexed). -/
def fpLog (P : FPParams) (st0 : FPState) (d0 : FPData) (n : ℕ) : FPCallLog :=
  fpCall P n (fpSteps P st0 d0 n).1 (fpSteps P st0 d0 n).2

/-! ## LabelPerturbation (src/transforms.py lines 76-118)

Label tensors live on an explicit store (a list of cells), because the
code mixes aliasing-sensitive operations: `data.y.clone()` allocates a
fresh cell, while `data.y[perturb_mask] = ...` mutates the cell `data.y`
currently points to.  The external label mechanism
`supported_label_mechanisms[my](eps, d)` is an opaque callable returning
a categorical-response matrix; its randomness is a stream indexed by the
call number. -/

/-- The heap of label tensors; a reference is an index into the list. -/
abbrev Store := List (List ℤ)

/-- Dereference a label tensor cell. -/
def lookupS (s : Store) (r : ℕ) : List ℤ := nthD [] s r

/-- Overwrite a cell in place (the store-level effect of
`data.y[perturb_mask] = ...`). -/
def setS : Store → ℕ → List ℤ → Store
  | [], _, _ => []
  | _ :: s, 0, v => v :: s
  | c :: s, r + 1, v => c :: setS s r v

/-- Configuration and external collaborators of a `LabelPerturbation`
instance. -/
structure LPParams where
  epsY : Option ℚ
  mechY : ℕ → ℚ → ℕ → List ℤ → List (List ℚ)
  lpStep : ℕ

/-- The dataset fields touched by label perturbation.  `yRef` is the
reference held by `data.y`; `yRawRef` is the lazily injected `data.y_raw`
backup reference.  Masks, adjacency and class count are never written. -/
structure LPData where
  yRef : ℕ
  yRawRef : Option ℕ
  trainMask : List Bool
  valMask : List Bool
  adj : Mat
  numClasses : ℕ

/-- Elementwise disjunction of boolean masks:
`data.train_mask | data.val_mask`. -/
def orMasks (a b : List Bool) : List Bool := List.zipWith or a b

/-- Boolean-mask selection `t[mask]` along the leading dimension. -/
def maskedSel {α : Type} : List α → List Bool → List α
  | [], _ => []
  | _ :: _, [] => []
  | a :: t, b :: ms => if b then a :: maskedSel t ms else maskedSel t ms

/-- Boolean-mask indexed assignment `y[mask] = sub`: positions where the
mask is true consume successive entries of `sub`, all other positions
keep their value.  (When lengths disagree torch raises; the embedding
keeps the old value, and every use site has agreeing lengths.) -/
def maskedAssign : List ℤ → List Bool → List ℤ → List ℤ
  | [], _, _ => []
  | y :: ys, [], _ => y :: ys
  | y :: ys, b :: ms, sub =>
    if b then
      match sub with
      | v :: vs => v :: maskedAssign ys ms vs
      | [] => y :: maskedAssign ys ms []
    else y :: maskedAssign ys ms sub

/-- The induced subgraph `adj_t[mask, mask]`: rows then columns
restricted to the mask. -/
def inducedAdj (adj : Mat) (mask : List Bool) : Mat :=
  (maskedSel adj mask).map (fun row => maskedSel row mask)

/-- Left multiplication by the diagonal matrix with the given values:
`matmul(D_inv, y)` for the sparse diagonal `D_inv`. -/
def scaleRowsQ (c : List ℚ) (m : Mat) : Mat :=
  List.zipWith (fun ci row => row.map (fun v => ci * v)) c m

/-- First index of the row maximum: `argmax(dim=1)` per row. -/
def argmaxAux : List ℚ → ℕ → ℕ → ℚ → ℕ
  | [], _, bi, _ => bi
  | a :: t, i, bi, bv => if bv < a then argmaxAux t (i + 1) i a else argmaxAux t (i + 1) bi bv

/-- `argmax` over a single row (0 on the empty row). -/
def argmaxIdx : List ℚ → ℕ
  | [] => 0
  | a :: t => argmaxAux t 1 0 a

/-- `LabelPerturbation.perturb` (src/transforms.py lines 107-118): apply
the external categorical mechanism, build `D_inv` with diagonal values
`1 / deg` over the induced-subgraph row sums (this is the unguarded
division site: over ℚ the value `1/0` collapses to 0, over IEEE floats
it is `inf`; the denominators themselves are exposed through
`lpCall`'s log), run `lp_step` propagation rounds, then decode by
argmax. -/
def lpPerturb (P : LPParams) (k : ℕ) (e : ℚ) (adjSub : Mat) (ySub : List ℤ) (nc : ℕ) :
    List ℤ :=
  let yMat := P.mechY k e nc ySub
  let deg := rowSums adjSub
  let dInv := deg.map (fun dv => 1 / dv)
  let final := (List.range P.lpStep).foldl (fun acc _ => scaleRowsQ dInv (matMulQ adjSub acc)) yMat
  final.map (fun row => (argmaxIdx row : ℤ))

/-- Result of one invocation of `LabelPerturbation.__call__`,
instrumented with the label tensor restored from the backup (when the
call took the restore branch) and with the denominator list consumed by
the `1 / deg` division forming `D_inv`. -/
structure LPCallLog where
  store : Store
  d : LPData
  restored : Option (List ℤ)
  dInvDenoms : Option (List ℚ)

/-- One invocation of `LabelPerturbation.__call__` (call number `k`),
translated line by line from src/transforms.py lines 88-105. -/
def lpCall (P : LPParams) (k : ℕ) (s : Store) (d : LPData) : LPCallLog :=
  match P.epsY with
  | none => ⟨s, d, none, none⟩
  | some e =>
    let step1 : Store × LPData × Option (List ℤ) :=
      match d.yRawRef with
      | none => (s ++ [lookupS s d.yRef], { d with yRawRef := some s.length }, none)
      | some r => (s ++ [lookupS s r], { d with yRef := s.length }, some (lookupS s r))
    let s1 := step1.1
    let d1 := step1.2.1
    let mask := orMasks d1.trainMask d1.valMask
    let y := lookupS s1 d1.yRef
    let adjSub := inducedAdj d1.adj mask
    let newSub := lpPerturb P k e adjSub (maskedSel y mask) d1.numClasses
    let newY := maskedAssign y mask newSub
    ⟨setS s1 d1.yRef newY, d1, step1.2.2, some (rowSums adjSub)⟩

/-- Fresh dataset state: `data.y` points at cell 0 and no backup exists
yet. -/
def lpInitD (tm vm : List Bool) (adj : Mat) (nc : ℕ) : LPData :=
  ⟨0, none, tm, vm, adj, nc⟩

/-- Store and dataset after `n` invocations of the same instance. -/
def lpSteps (P : LPParams) (s0 : Store) (d0 : LPData) : ℕ → Store × LPData
  | 0 => (s0, d0)
  | n + 1 =>
    let p := lpSteps P s0 d0 n
    let L := lpCall P n p.1 p.2
    (L.store, L.d)

/-- Instrumented log of invocation number `n` (0-indexed). -/
def lpLog (P : LPParams) (s0 : Store) (d0 : LPData) (n : ℕ) : LPCallLog :=
  lpCall P n (lpSteps P s0 d0 n).1 (lpSteps P s0 d0 n).2

/-- The label value at node `i` visible to downstream consumers. -/
def lpYVal (sd : Store × LPData) (i : ℕ) : ℤ := nthD 0 (lookupS sd.1 sd.2.yRef) i

/-- Invariant of the label-perturbation state machine, relative to the
initial labels `y0` and the immutable dataset fields: the configuration
fields are untouched, the `y` reference is live, the visible labels
agree with `y0` outside `train | val`, before the first call the state
is exactly the initial one, and once the backup exists it is a live
cell, distinct from the `y` cell, still holding exactly `y0`. -/
def lpGood (y0 : List ℤ) (tm vm : List Bool) (adj : Mat) (nc : ℕ)
    (sd : Store × LPData) : Prop :=
  sd.2.trainMask = tm ∧ sd.2.valMask = vm ∧ sd.2.adj = adj ∧ sd.2.numClasses = nc ∧
  sd.2.yRef < sd.1.length ∧
  (∀ i, nthD false (orMasks tm vm) i = false →
    nthD 0 (lookupS sd.1 sd.2.yRef) i = nthD 0 y0 i) ∧
  (sd.2.yRawRef = none → sd.1 = [y0] ∧ sd.2.yRef = 0) ∧
  (∀ r, sd.2.yRawRef = some r →
    r < sd.1.length ∧ r ≠ sd.2.yRef ∧ lookupS sd.1 r = y0)

/-! ## ErrorEstimation (src/error.py lines 14-45)

The diffusion probe `self.model` is an external collaborator (a fixed
identity-weighted `GCNConv`); it is a deterministic map on attribute
matrices, passed as the opaque parameter `g`, applied once to the
pristine attributes at construction (`self.gc`) and once to the current
attributes in `run` (`gc_hat`).  The pandas `std` of each degree group
is represented by its square, the sample variance with `ddof=1` and
`fillna(0)` on singleton groups: `std = 0` iff the carried value is 0,
which is the only place the claims mention it. -/

/-- The per-dimension scale `delta = beta - alpha` computed from the
pristine attributes at construction (src/error.py lines 17-19). -/
def eeDelta (raw : Mat) : List ℚ :=
  (List.range (raw.headD []).length).map (fun j => colMax raw j - colMin raw j)

/-- One entry of `(gc - gc_hat) / delta` followed by the explicit
zeroing `diff[:, delta == 0] = 0` (src/error.py lines 32-33). -/
def eeScale (dl : ℚ) (ab : ℚ × ℚ) : ℚ := if dl = 0 then 0 else (ab.1 - ab.2) / dl

/-- One row of the normalized discrepancy matrix. -/
def eeRowDiff (delta r1 r2 : List ℚ) : List ℚ :=
  List.zipWith (fun ab dl => eeScale dl ab) (List.zip r1 r2) delta

/-- The normalized discrepancy matrix `diff` of `run`. -/
def eeDiffMat (g : Mat → Mat) (raw x : Mat) : Mat :=
  (List.zip (g raw) (g x)).map (fun rr => eeRowDiff (eeDelta raw) rr.1 rr.2)

/-- One entry of the discrepancy matrix. -/
def eeDiffEntry (g : Mat → Mat) (raw x : Mat) (i j : ℕ) : ℚ :=
  nthD 0 (nthD [] (eeDiffMat g raw x) i) j

/-- The per-node errors `torch.norm(diff, p=1, dim=1) / num_features`
(src/error.py line 34). -/
def eeErrors (g : Mat → Mat) (raw x : Mat) : List ℚ :=
  (eeDiffMat g raw x).map (fun row => (row.map (fun v => |v|)).sum / ((x.headD []).length : ℚ))

/-- Node degrees `degree(row, num_nodes)`: occurrence counts of each
node in the source column of the edge index (src/error.py lines 37-38). -/
def eeDegrees (edgeRow : List ℕ) (N : ℕ) : List ℚ :=
  (List.range N).map (fun v => (edgeRow.count v : ℚ))

/-- Insertion into a sorted rational list. -/
def insertSortedQ (a : ℚ) : List ℚ → List ℚ
  | [] => [a]
  | b :: t => if a ≤ b then a :: b :: t else b :: insertSortedQ a t

/-- Insertion sort, ascending. -/
def sortQ (l : List ℚ) : List ℚ := l.foldr insertSortedQ []

/-- The pandas `Series.quantile(q)` with the default linear
interpolation: position `q * (n - 1)` between the order statistics. -/
def quantileLinear (l : List ℚ) (q : ℚ) : ℚ :=
  let s := sortQ l
  let n := s.length
  if n = 0 then 0
  else
    let pos := q * ((n : ℚ) - 1)
    let i := (Int.floor pos).toNat
    let frac := pos - (i : ℚ)
    if i + 1 < n then nthD 0 s i + frac * (nthD 0 s (i + 1) - nthD 0 s i)
    else nthD 0 s (n - 1)

/-- Collapse consecutive duplicates of a sorted list: the ascending
group keys of a pandas `groupby`. -/
def dedupAdjQ : List ℚ → List ℚ
  | [] => []
  | [a] => [a]
  | a :: b :: t => if a = b then dedupAdjQ (b :: t) else a :: dedupAdjQ (b :: t)

/-- Group mean. -/
def meanQ (l : List ℚ) : ℚ := l.sum / (l.length : ℚ)

/-- Squared pandas group `std`: the sample variance with `ddof=1`, with
the singleton-group `NaN` replaced by 0 (`fillna(0)`). -/
def sampleVarQ (l : List ℚ) : ℚ :=
  if l.length ≤ 1 then 0
  else (l.map (fun v => (v - meanQ l) ^ 2)).sum / ((l.length : ℚ) - 1)

/-- The degree-bucketed report of `ErrorEstimation.run` (src/error.py
lines 40-45): pair each node's degree with its error, drop rows whose
degree is not strictly below the degree quantile, group by exact degree
(ascending), and report mean and (squared) std per bucket. -/
def eeBuckets (g : Mat → Mat) (raw x : Mat) (edgeRow : List ℕ) (N : ℕ) (q : ℚ) :
    List (ℚ × ℚ × ℚ) :=
  let errs := eeErrors g raw x
  let degs := eeDegrees edgeRow N
  let pairs := List.zip degs errs
  let cut := quantileLinear degs q
  let kept := pairs.filter (fun p => decide (p.1 < cut))
  (dedupAdjQ (sortQ (kept.map Prod.fst))).map (fun dv =>
    let es := (kept.filter (fun p => decide (p.1 = dv))).map Prod.snd
    (dv, meanQ es, sampleVarQ es))

/-! ## NodeSplit (src/transforms.py lines 141-188)

`torch.randperm` is the externally supplied permutation `perm` of the
eligible population.  `int(ratio * n)` truncates toward zero, which for
the nonnegative products appearing here is the floor. -/

/-- The eligible population `nodes_with_class` (src/transforms.py lines
152-157): all nodes unless the sentinel label -1 occurs, in which case
exactly the nodes whose label differs from -1. -/
def eligMask (y : List ℤ) (N : ℕ) : List Bool :=
  if y.contains (-1) then y.map (fun v => decide (v ≠ -1)) else List.replicate N true

/-- Number of true entries of a boolean mask: `mask.sum().item()`. -/
def countTrue (l : List Bool) : ℕ := l.countP (fun b => b)

/-- `num_nodes_with_class`. -/
def nClass (y : List ℤ) (N : ℕ) : ℕ := countTrue (eligMask y N)

/-- `int(ratio * n)` for a nonnegative ratio. -/
def splitCount (f : ℚ) (n : ℕ) : ℕ := (Int.floor (f * n)).toNat

/-- A length-`n` boolean mask that is true exactly on the listed
indices: the zero tensor after `mask[indices] = True`. -/
def tempMask (idxs : List ℕ) (n : ℕ) : List Bool :=
  (List.range n).map (fun i => decide (i ∈ idxs))

/-- The masked tensor assignment `big[elig] = temp` on a zero boolean
tensor: position `i` receives the `k`-th entry of `temp` where `k` is
the rank of `i` among the true positions of `elig`, and false
elsewhere. -/
def scatterMask : List Bool → List Bool → List Bool
  | [], _ => []
  | e :: es, t =>
    if e then
      match t with
      | b :: ts => b :: scatterMask es ts
      | [] => false :: scatterMask es []
    else false :: scatterMask es t

/-- The three masks produced by `NodeSplit.__call__`. -/
structure SplitMasks where
  train : List Bool
  val : List Bool
  test : List Bool

/-- `NodeSplit.__call__` (src/transforms.py lines 151-188) for ratios
`tf`, `vf`, `sf` and permutation `perm` of the eligible population. -/
def nodeSplit (y : List ℤ) (N : ℕ) (tf vf sf : ℚ) (perm : List ℕ) : SplitMasks :=
  let elig := eligMask y N
  let n := countTrue elig
  let nTr := splitCount tf n
  let nVa := splitCount vf n
  let nTe := splitCount sf n
  let trainNodes := perm.take nTr
  let valNodes := (perm.drop nTr).take nVa
  let testNodes := (perm.drop (nTr + nVa)).take nTe
  ⟨scatterMask elig (tempMask trainNodes n),
   scatterMask elig (tempMask valNodes n),
   scatterMask elig (tempMask testNodes n)⟩

/-! ## Normalize (src/transforms.py lines 191-202) -/

/-- The per-dimension range `delta = beta - alpha`. -/
def normDelta (m : Mat) (j : ℕ) : ℚ := colMax m j - colMin m j

/-- The feature dimensionality of the input. -/
def normD (m : Mat) : ℕ := (m.headD []).length

/-- The columns kept by `torch.nonzero(delta)`: those with nonzero
range. -/
def normKeep (m : Mat) : List ℕ :=
  (List.range (normD m)).filter (fun j => decide (normDelta m j ≠ 0))

/-- The full rescaled matrix
`(x - alpha) * (high - low) / delta + low` (src/transforms.py line
200), before column selection. -/
def normScaled (low high : ℚ) (m : Mat) : Mat :=
  m.map (fun row => (List.range (normD m)).map (fun j =>
    (nthD 0 row j - colMin m j) * (high - low) / normDelta m j + low))

/-- `Normalize.__call__`: rescale, then drop the zero-range columns
(src/transforms.py lines 196-202). -/
def normalizeX (low high : ℚ) (m : Mat) : Mat :=
  (normScaled low high m).map (fun row => (normKeep m).map (fun j => nthD 0 row j))

/-! ## Concrete data for the 5-node cycle scenario -/

/-- Source column of the bidirectional edge index of the 5-node cycle
graph 0-1-2-3-4-0 (each undirected edge stored in both directions, so
every node occurs twice). -/
def cycleEdgeRow : List ℕ := [0, 1, 1, 2, 2, 3, 3, 4, 4, 0]

/-- The symmetric-normalized propagation matrix of the identity-weight
`GCNConv` on the 5-node cycle: with self-loops every augmented degree is
3, so the propagation is exactly `(A + I) / 3`, which is rational. -/
def cycleProp : Mat :=
  [[1/3, 1/3, 0, 0, 1/3],
   [1/3, 1/3, 1/3, 0, 0],
   [0, 1/3, 1/3, 1/3, 0],
   [0, 0, 1/3, 1/3, 1/3],
   [1/3, 0, 0, 1/3, 1/3]]

/-- A concrete 5 x 3 attribute matrix for the cycle scenario. -/
def cycleX : Mat := [[1, 0, 0], [0, 1, 0], [0, 0, 1], [1, 1, 0], [0, 1, 1]]

/-! ## Generic access lemmas -/

theorem nthD_le_length {α : Type} (d : α) :
    ∀ (l : List α) (i : ℕ), l.length ≤ i → nthD d l i = d := by
  intro l
  induction l with
  | nil => intro i _; rfl
  | cons a t ih =>
    intro i hi
    cases i with
    | zero => simp at hi
    | succ i => exact ih i (Nat.le_of_succ_le_succ hi)

theorem nthD_map_lt {α β : Type} (dβ : β) (f : α → β) (dα : α) :
    ∀ (l : List α) (i : ℕ), i < l.length → nthD dβ (l.map f) i = f (nthD dα l i) := by
  intro l
  induction l with
  | nil => intro i hi; simp at hi
  | cons a t ih =>
    intro i hi
    cases i with
    | zero => rfl
    | succ i => exact ih i (Nat.lt_of_succ_lt_succ hi)

theorem nthD_mem {α : Type} (d : α) :
    ∀ (l : List α) (i : ℕ), i < l.length → nthD d l i ∈ l := by
  intro l
  induction l with
  | nil => intro i hi; simp at hi
  | cons a t ih =>
    intro i hi
    cases i with
    | zero => exact List.mem_cons_self a t
    | succ i => exact List.mem_cons_of_mem a (ih i (Nat.lt_of_succ_lt_succ hi))

theorem nthD_map_range {α : Type} (d : α) :
    ∀ (n : ℕ) (f : ℕ → α) (i : ℕ),
      nthD d ((List.range n).map f) i = if i < n then f i else d := by
  intro n
  induction n with
  | zero => intro f i; simp [nthD]
  | succ n ih =>
    intro f i
    rw [List.range_succ_eq_map, List.map_cons, List.map_map]
    cases i with
    | zero => simp [nthD]
    | succ i =>
      show nthD d ((List.range n).map (f ∘ Nat.succ)) i = _
      rw [ih (f ∘ Nat.succ) i]
      simp [Nat.succ_lt_succ_iff, Function.comp]

theorem nthD_append_lt {α : Type} (d : α) :
    ∀ (s t : List α) (r : ℕ), r < s.length → nthD d (s ++ t) r = nthD d s r := by
  intro s
  induction s with
  | nil => intro t r hr; simp at hr
  | cons a s ih =>
    intro t r hr
    cases r with
    | zero => rfl
    | succ r => exact ih t r (Nat.lt_of_succ_lt_succ hr)

theorem nthD_append_len {α : Type} (d : α) :
    ∀ (s : List α) (v : α), nthD d (s ++ [v]) s.length = v := by
  intro s
  induction s with
  | nil => intro v; rfl
  | cons a s ih => intro v; exact ih v

/-! ## FeaturePerturbation lemmas -/

theorem fpCall_first (P : FPParams) (e : ℚ) (hP : P.epsX = some e) (k : ℕ)
    (st : FPState) (x : Mat) :
    (fpCall P k st ⟨x, none⟩).d.xRaw = some x ∧
      (fpCall P k st ⟨x, none⟩).mechArg = some (projApply P k x) := by
  simp [fpCall, hP]

theorem fpCall_again (P : FPParams) (e : ℚ) (hP : P.epsX = some e) (k : ℕ)
    (st : FPState) (d : FPData) (xr : Mat) (hd : d.xRaw = some xr) :
    (fpCall P k st d).d.xRaw = some xr ∧
      (fpCall P k st d).mechArg = some (projApply P k xr) := by
  cases d with
  | mk x xRaw =>
    cases hd
    simp [fpCall, hP]

theorem fp_xRaw_all (P : FPParams) (e : ℚ) (hP : P.epsX = some e)
    (st0 : FPState) (x0 : Mat) :
    ∀ n : ℕ, (fpSteps P st0 ⟨x0, none⟩ (n + 1)).2.xRaw = some x0 := by
  intro n
  induction n with
  | zero =>
    show (fpCall P 0 st0 ⟨x0, none⟩).d.xRaw = some x0
    exact (fpCall_first P e hP 0 st0 x0).1
  | succ k ih =>
    show (fpCall P (k + 1) (fpSteps P st0 ⟨x0, none⟩ (k + 1)).1
        (fpSteps P st0 ⟨x0, none⟩ (k + 1)).2).d.xRaw = some x0
    exact (fpCall_again P e hP (k + 1) _ _ x0 ih).1

theorem fp_mechArg_all (P : FPParams) (e : ℚ) (hP : P.epsX = some e)
    (st0 : FPState) (x0 : Mat) :
    ∀ n : ℕ, (fpLog P st0 ⟨x0, none⟩ n).mechArg = some (projApply P n x0) := by
  intro n
  cases n with
  | zero => exact (fpCall_first P e hP 0 st0 x0).2
  | succ k =>
    exact (fpCall_again P e hP (k + 1) _ _ x0 (fp_xRaw_all P e hP st0 x0 k)).2

theorem fpCall_range_kept (P : FPParams) (e : ℚ) (hP : P.epsX = some e) (k : ℕ)
    (st : FPState) (d : FPData) (rng : ℚ × ℚ) (hst : st.inputRange = some rng) :
    (fpCall P k st d).st.inputRange = some rng ∧
      (fpCall P k st d).rangeArg = some rng := by
  cases st with
  | mk ir =>
    cases hst
    simp [fpCall, hP]

theorem fp_range_all (P : FPParams) (e : ℚ) (hP : P.epsX = some e) (x0 : Mat) :
    ∀ n : ℕ,
      (fpSteps P ⟨none⟩ ⟨x0, none⟩ (n + 1)).1.inputRange =
          some (matMinQ x0, matMaxQ x0) ∧
        (fpLog P ⟨none⟩ ⟨x0, none⟩ n).rangeArg = some (matMinQ x0, matMaxQ x0) := by
  intro n
  induction n with
  | zero =>
    constructor
    · show (fpCall P 0 ⟨none⟩ ⟨x0, none⟩).st.inputRange = some (matMinQ x0, matMaxQ x0)
      simp [fpCall, hP]
    · show (fpCall P 0 ⟨none⟩ ⟨x0, none⟩).rangeArg = some (matMinQ x0, matMaxQ x0)
      simp [fpCall, hP]
  | succ k ih =>
    have hkept := fpCall_range_kept P e hP (k + 1)
      (fpSteps P ⟨none⟩ ⟨x0, none⟩ (k + 1)).1
      (fpSteps P ⟨none⟩ ⟨x0, none⟩ (k + 1)).2
      (matMinQ x0, matMaxQ x0) ih.1
    exact hkept

/-- C1: with `epsilon_x` set, the first invocation snapshots the current
attributes as the pristine original `x_raw`, the snapshot still holds
that value after any number of further invocations, and the matrix
handed to the perturbation mechanism on every call (the `mechArg` of the
log) is the pristine signal, only transformed by that call's optional
projection — never a previously perturbed output. -/
theorem featurePerturbation_pristine_input (P : FPParams) (e : ℚ) (hP : P.epsX = some e)
    (st0 : FPState) (x0 : Mat) (n : ℕ) :
    (fpSteps P st0 ⟨x0, none⟩ (n + 1)).2.xRaw = some x0 ∧
      (fpLog P st0 ⟨x0, none⟩ n).mechArg = some (projApply P n x0) :=
  ⟨fp_xRaw_all P e hP st0 x0 n, fp_mechArg_all P e hP st0 x0 n⟩

/-- Witness for C1 at a concrete instance: one feature, identity
mechanism, no dimensionality reduction, second invocation. -/
theorem featurePerturbation_pristine_input_witness :
    (⟨some 1, none, fun _ _ _ m => m, fun _ => []⟩ : FPParams).epsX = some 1 ∧
      ((fpSteps (⟨some 1, none, fun _ _ _ m => m, fun _ => []⟩ : FPParams)
            ⟨none⟩ ⟨[[2]], none⟩ 2).2.xRaw = some [[2]] ∧
        (fpLog (⟨some 1, none, fun _ _ _ m => m, fun _ => []⟩ : FPParams)
            ⟨none⟩ ⟨[[2]], none⟩ 1).mechArg =
          some (projApply (⟨some 1, none, fun _ _ _ m => m, fun _ => []⟩ : FPParams) 1 [[2]])) :=
  ⟨rfl, featurePerturbation_pristine_input _ 1 rfl ⟨none⟩ [[2]] 1⟩

/-- C2 counterexample: a `FeaturePerturbation` instance with
`reduce_dim` and `epsilon_x` set, whose two first invocations see the
same pristine attributes `[[1]]`, hands different projected attributes
to the mechanism, because `RandomizedProjection` is constructed afresh
inside every call and consumes a fresh `torch.rand` draw (`[[0]]` on
call 0, `[[1]]` on call 1). -/
theorem featurePerturbation_redraw_counterexample :
    (fpLog (⟨some 1, some 1, fun _ _ _ m => m, fun k => [[(k : ℚ)]]⟩ : FPParams)
        ⟨none⟩ ⟨[[1]], none⟩ 0).mechArg ≠
      (fpLog (⟨some 1, some 1, fun _ _ _ m => m, fun k => [[(k : ℚ)]]⟩ : FPParams)
        ⟨none⟩ ⟨[[1]], none⟩ 1).mechArg := by
  rw [fp_mechArg_all _ 1 rfl ⟨none⟩ [[1]] 0, fp_mechArg_all _ 1 rfl ⟨none⟩ [[1]] 1]
  norm_num [projApply, matMulQ, dotQ, colOf, nthD]

/-- C2 amended: with `reduce_dim` and `epsilon_x` set, invocation `k`
multiplies the pristine attributes by the `k`-th fresh random draw —
each call constructs a new `RandomizedProjection`, so the projection
matrix is fixed only within one such constructed instance, not across
invocations of the `FeaturePerturbation` instance. -/
theorem featurePerturbation_projection_per_call (P : FPParams) (e : ℚ) (r : ℕ)
    (hP : P.epsX = some e) (hR : P.reduceDim = some r) (st0 : FPState) (x0 : Mat) (n : ℕ) :
    (fpLog P st0 ⟨x0, none⟩ n).mechArg = some (matMulQ x0 (P.projDraws n)) := by
  have h := fp_mechArg_all P e hP st0 x0 n
  rw [h]
  simp [projApply, hR]

/-- Witness for the amended C2 at a concrete instance. -/
theorem featurePerturbation_projection_per_call_witness :
    (⟨some 1, some 1, fun _ _ _ m => m, fun k => [[(k : ℚ)]]⟩ : FPParams).epsX = some 1 ∧
      (⟨some 1, some 1, fun _ _ _ m => m, fun k => [[(k : ℚ)]]⟩ : FPParams).reduceDim = some 1 ∧
      (fpLog (⟨some 1, some 1, fun _ _ _ m => m, fun k => [[(k : ℚ)]]⟩ : FPParams)
          ⟨none⟩ ⟨[[1]], none⟩ 1).mechArg =
        some (matMulQ [[1]]
          ((⟨some 1, some 1, fun _ _ _ m => m, fun k => [[(k : ℚ)]]⟩ : FPParams).projDraws 1)) :=
  ⟨rfl, rfl,
    featurePerturbation_projection_per_call _ 1 1 rfl rfl ⟨none⟩ [[1]] 1⟩

/-- C9: constructed without a `data_range` and with `epsilon_x` set, the
range handed to the mechanism on every invocation is the global
`(min, max)` of the pristine attributes, computed on the first call and
frozen in `self.input_range` ever after — never recomputed from
perturbed attributes. -/
theorem featurePerturbation_frozen_range (P : FPParams) (e : ℚ) (hP : P.epsX = some e)
    (x0 : Mat) (n : ℕ) :
    (fpLog P ⟨none⟩ ⟨x0, none⟩ n).rangeArg = some (matMinQ x0, matMaxQ x0) ∧
      (fpSteps P ⟨none⟩ ⟨x0, none⟩ (n + 1)).1.inputRange = some (matMinQ x0, matMaxQ x0) :=
  ⟨(fp_range_all P e hP x0 n).2, (fp_range_all P e hP x0 n).1⟩

/-! ## ErrorEstimation lemmas -/

theorem zip_self_eq_map {α : Type} (l : List α) :
    List.zip l l = l.map (fun a => (a, a)) := by
  induction l with
  | nil => rfl
  | cons a t ih => simpa [List.zip_cons_cons] using ih

theorem eeRowDiff_self_abs_sum (r : List ℚ) :
    ∀ delta : List ℚ, ((eeRowDiff delta r r).map (fun v => |v|)).sum = 0 := by
  induction r with
  | nil => intro delta; simp [eeRowDiff]
  | cons a t ih =>
    intro delta
    cases delta with
    | nil => simp [eeRowDiff]
    | cons dl dt =>
      have hhead : eeScale dl (a, a) = 0 := by
        simp [eeScale, sub_self, zero_div]
      simp [eeRowDiff, List.zip_cons_cons, hhead] at *
      exact ih dt

theorem err_map_self (delta : List ℚ) (nf : ℚ) (l : List (List ℚ)) :
    ((List.zip l l).map (fun rr => eeRowDiff delta rr.1 rr.2)).map
        (fun row => (row.map (fun v => |v|)).sum / nf) =
      List.replicate l.length 0 := by
  induction l with
  | nil => rfl
  | cons r t ih =>
    simp only [List.zip_cons_cons, List.map_cons, List.length_cons, List.replicate_succ]
    rw [eeRowDiff_self_abs_sum r delta, zero_div]
    exact congrArg (List.cons 0) ih

theorem eeRowDiff_nthD_delta_zero :
    ∀ (p : List (ℚ × ℚ)) (delta : List ℚ) (j : ℕ), nthD 0 delta j = 0 →
      nthD 0 (List.zipWith (fun ab dl => eeScale dl ab) p delta) j = 0 := by
  intro p
  induction p with
  | nil => intro delta j _; simp [nthD]
  | cons ab pt ih =>
    intro delta j hd
    cases delta with
    | nil => simp [nthD]
    | cons dl dt =>
      cases j with
      | zero =>
        show eeScale dl ab = 0
        have : dl = 0 := hd
        simp [eeScale, this]
      | succ j => exact ih dt j hd

/-- C5: when the current attributes equal the pristine attributes, the
recomputed diffusion coincides with the cached ground truth and every
per-node error of `run` is exactly 0; moreover, for any current
attributes, every discrepancy entry at a dimension of zero
per-dimension range is explicitly zeroed. -/
theorem errorEstimation_unperturbed_zero (g : Mat → Mat) (raw : Mat) :
    eeErrors g raw raw = List.replicate (g raw).length 0 ∧
      ∀ (x : Mat) (i j : ℕ), nthD 0 (eeDelta raw) j = 0 → eeDiffEntry g raw x i j = 0 := by
  constructor
  · exact err_map_self (eeDelta raw) ((raw.headD []).length : ℚ) (g raw)
  · intro x i j hj
    unfold eeDiffEntry eeDiffMat
    by_cases hi : i < (List.zip (g raw) (g x)).length
    · rw [nthD_map_lt ([] : List ℚ) _ (([], []) : List ℚ × List ℚ) _ i hi]
      exact eeRowDiff_nthD_delta_zero _ (eeDelta raw) j hj
    · rw [nthD_le_length ([] : List ℚ) _ i (by simpa using Nat.le_of_not_lt hi)]
      rfl

/-- Witness for C5: identity diffusion on a constant one-column matrix
(zero range, so the delta of the only dimension is 0). -/
theorem errorEstimation_unperturbed_zero_witness :
    nthD 0 (eeDelta [[1], [1]]) 0 = 0 ∧
      eeErrors (fun m => m) [[1], [1]] [[1], [1]] = List.replicate 2 0 ∧
      eeDiffEntry (fun m => m) [[1], [1]] [[5], [9]] 0 0 = 0 := by
  have h := errorEstimation_unperturbed_zero (fun m => m) [[1], [1]]
  have hz : nthD 0 (eeDelta [[1], [1]]) 0 = 0 := by
    norm_num [eeDelta, colMax, colMin, colOf, listMinD, listMaxD, nthD]
  exact ⟨hz, h.1, h.2 [[5], [9]] 0 0 hz⟩

theorem filter_zip_not_lt (c : ℚ) :
    ∀ ds : List ℚ, (∀ d ∈ ds, ¬d < c) → ∀ es : List ℚ,
      (List.zip ds es).filter (fun p => decide (p.1 < c)) = [] := by
  intro ds
  induction ds with
  | nil => intro _ es; simp
  | cons d dt ih =>
    intro h es
    cases es with
    | nil => simp
    | cons e et =>
      have hd : ¬d < c := h d (List.mem_cons_self d dt)
      simp only [List.zip_cons_cons, List.filter_cons, decide_eq_true_eq]
      rw [if_neg hd]
      exact ih (fun x hx => h x (List.mem_cons_of_mem d hx)) et

theorem eeDegrees_cycle : eeDegrees cycleEdgeRow 5 = [2, 2, 2, 2, 2] := by
  norm_num [eeDegrees, cycleEdgeRow, List.range_succ, List.count_cons]

theorem quantile_cycle : quantileLinear [2, 2, 2, 2, 2] (99 / 100) = 2 := by
  have hsort : sortQ [2, 2, 2, 2, 2] = [(2 : ℚ), 2, 2, 2, 2] := by
    simp [sortQ, insertSortedQ, le_refl]
  have hfloor : Int.floor ((99 : ℚ) / 100 * ((5 : ℚ) - 1)) = 3 := by norm_num
  simp only [quantileLinear, hsort]
  norm_num [hfloor, nthD]

theorem eeBuckets_cycle_empty (g : Mat → Mat) (raw x : Mat) :
    eeBuckets g raw x cycleEdgeRow 5 (99 / 100) = [] := by
  have hkept := filter_zip_not_lt 2 [2, 2, 2, 2, 2] (by norm_num) (eeErrors g raw x)
  simp only [eeBuckets, eeDegrees_cycle, quantile_cycle, hkept]
  simp [sortQ, dedupAdjQ]

theorem fpSteps_eps_none (P : FPParams) (hP : P.epsX = none) (st0 : FPState) (d0 : FPData) :
    ∀ n : ℕ, fpSteps P st0 d0 n = (st0, d0) := by
  intro n
  induction n with
  | zero => rfl
  | succ k ih =>
    show (let p := fpSteps P st0 d0 k; let L := fpCall P k p.1 p.2; (L.st, L.d)) = _
    rw [ih]
    simp [fpCall, hP]

theorem lpSteps_eps_none (P : LPParams) (hP : P.epsY = none) (s0 : Store) (d0 : LPData) :
    ∀ n : ℕ, lpSteps P s0 d0 n = (s0, d0) := by
  intro n
  induction n with
  | zero => rfl
  | succ k ih =>
    show (let p := lpSteps P s0 d0 k; let L := lpCall P k p.1 p.2; (L.store, L.d)) = _
    rw [ih]
    simp [lpCall, hP]

/-- C4 amended: on the 5-node cycle (degree 2 everywhere) with feature
and label perturbation disabled (`epsilon None`, so both stages are
no-ops), `run` with the default degree quantile 0.99 reports no degree
bucket at all — the 0.99 quantile of the constant degree series is 2
and only rows with degree strictly below the quantile are kept, so the
grouped table is empty (this holds for every diffusion probe and every
attribute matrix). -/
theorem errorEstimation_cycle_no_buckets (g : Mat → Mat) (Pf : FPParams) (Pl : LPParams)
    (hf : Pf.epsX = none) (hl : Pl.epsY = none) (st0 : FPState) (x0 : Mat)
    (s0 : Store) (d0 : LPData) (n m : ℕ) :
    (fpSteps Pf st0 ⟨x0, none⟩ n).2.x = x0 ∧ lpSteps Pl s0 d0 m = (s0, d0) ∧
      eeBuckets g x0 x0 cycleEdgeRow 5 (99 / 100) = [] := by
  refine ⟨?_, lpSteps_eps_none Pl hl s0 d0 m, eeBuckets_cycle_empty g x0 x0⟩
  rw [fpSteps_eps_none Pf hf st0 ⟨x0, none⟩ n]

/-- Witness for the amended C4 at the concrete cycle scenario: identity
mechanisms disabled by `epsilon None`, the exact rational `GCNConv`
propagation of the cycle as diffusion probe, and a concrete 5 x 3
attribute matrix. -/
theorem errorEstimation_cycle_no_buckets_witness :
    (⟨none, none, fun _ _ _ mm => mm, fun _ => []⟩ : FPParams).epsX = none ∧
      (⟨none, fun _ _ _ l => l.map (fun _ => [1]), 0⟩ : LPParams).epsY = none ∧
      eeBuckets (fun mm => matMulQ cycleProp mm) cycleX cycleX cycleEdgeRow 5 (99 / 100) = [] :=
  ⟨rfl, rfl,
    (errorEstimation_cycle_no_buckets (fun mm => matMulQ cycleProp mm)
      (⟨none, none, fun _ _ _ mm => mm, fun _ => []⟩ : FPParams)
      (⟨none, fun _ _ _ l => l.map (fun _ => [1]), 0⟩ : LPParams) rfl rfl
      ⟨none⟩ cycleX [] (lpInitD [] [] [] 0) 1 1).2.2⟩

/-- C4 counterexample: in the concrete cycle scenario (pristine
attributes, the exact rational `GCNConv` propagation of the 5-cycle as
diffusion probe, default 0.99 quantile), `run` reports an empty bucket
list, not the single bucket `(degree 2, mean 0, std 0)` the claim
demands. -/
theorem errorEstimation_cycle_counterexample :
    eeBuckets (fun mm => matMulQ cycleProp mm) cycleX cycleX cycleEdgeRow 5 (99 / 100) = [] ∧
      eeBuckets (fun mm => matMulQ cycleProp mm) cycleX cycleX cycleEdgeRow 5 (99 / 100) ≠
        [(2, 0, 0)] := by
  have h := eeBuckets_cycle_empty (fun mm => matMulQ cycleProp mm) cycleX cycleX
  exact ⟨h, by rw [h]; simp⟩

/-! ## LabelPerturbation lemmas -/

theorem lookupS_append_lt (s t : Store) (r : ℕ) (hr : r < s.length) :
    lookupS (s ++ t) r = lookupS s r :=
  nthD_append_lt [] s t r hr

theorem lookupS_append_len (s : Store) (v : List ℤ) :
    lookupS (s ++ [v]) s.length = v :=
  nthD_append_len [] s v

theorem setS_length : ∀ (s : Store) (r : ℕ) (v : List ℤ), (setS s r v).length = s.length := by
  intro s
  induction s with
  | nil => intro r v; rfl
  | cons c t ih =>
    intro r v
    cases r with
    | zero => rfl
    | succ r => simpa [setS] using ih r v

theorem lookupS_setS_self :
    ∀ (s : Store) (r : ℕ) (v : List ℤ), r < s.length → lookupS (setS s r v) r = v := by
  intro s
  induction s with
  | nil => intro r v hr; simp at hr
  | cons c t ih =>
    intro r v hr
    cases r with
    | zero => rfl
    | succ r => exact ih r v (Nat.lt_of_succ_lt_succ hr)

theorem lookupS_setS_ne :
    ∀ (s : Store) (r q : ℕ) (v : List ℤ), r ≠ q → lookupS (setS s r v) q = lookupS s q := by
  intro s
  induction s with
  | nil => intro r q v _; rfl
  | cons c t ih =>
    intro r q v hne
    cases r with
    | zero =>
      cases q with
      | zero => exact absurd rfl hne
      | succ q => rfl
    | succ r =>
      cases q with
      | zero => rfl
      | succ q => exact ih r q v (fun h => hne (congrArg Nat.succ h))

theorem maskedAssign_not_mask :
    ∀ (y : List ℤ) (mask : List Bool) (sub : List ℤ) (i : ℕ),
      nthD false mask i = false →
      nthD 0 (maskedAssign y mask sub) i = nthD 0 y i := by
  intro y
  induction y with
  | nil => intro mask sub i _; rfl
  | cons a ys ih =>
    intro mask sub i hm
    cases mask with
    | nil => rfl
    | cons b ms =>
      cases i with
      | zero =>
        have hb : b = false := hm
        subst hb
        rfl
      | succ i =>
        have hms : nthD false ms i = false := hm
        cases b with
        | false => exact ih ms sub i hms
        | true =>
          cases sub with
          | nil => exact ih ms [] i hms
          | cons v vs => exact ih ms vs i hms

theorem lpCall_eq_none (P : LPParams) (e : ℚ) (hP : P.epsY = some e) (k : ℕ) (s : Store)
    (yRef : ℕ) (tm vm : List Bool) (adj : Mat) (nc : ℕ) :
    lpCall P k s ⟨yRef, none, tm, vm, adj, nc⟩ =
      ⟨setS (s ++ [lookupS s yRef]) yRef
          (maskedAssign (lookupS (s ++ [lookupS s yRef]) yRef) (orMasks tm vm)
            (lpPerturb P k e (inducedAdj adj (orMasks tm vm))
              (maskedSel (lookupS (s ++ [lookupS s yRef]) yRef) (orMasks tm vm)) nc)),
        ⟨yRef, some s.length, tm, vm, adj, nc⟩, none,
        some (rowSums (inducedAdj adj (orMasks tm vm)))⟩ := by
  simp [lpCall, hP]

theorem lpCall_eq_some (P : LPParams) (e : ℚ) (hP : P.epsY = some e) (k : ℕ) (s : Store)
    (yRef r : ℕ) (tm vm : List Bool) (adj : Mat) (nc : ℕ) :
    lpCall P k s ⟨yRef, some r, tm, vm, adj, nc⟩ =
      ⟨setS (s ++ [lookupS s r]) s.length
          (maskedAssign (lookupS (s ++ [lookupS s r]) s.length) (orMasks tm vm)
            (lpPerturb P k e (inducedAdj adj (orMasks tm vm))
              (maskedSel (lookupS (s ++ [lookupS s r]) s.length) (orMasks tm vm)) nc)),
        ⟨s.length, some r, tm, vm, adj, nc⟩, some (lookupS s r),
        some (rowSums (inducedAdj adj (orMasks tm vm)))⟩ := by
  simp [lpCall, hP]

theorem lpCall_step (P : LPParams) (e : ℚ) (hP : P.epsY = some e)
    (y0 : List ℤ) (tm vm : List Bool) (adj : Mat) (nc : ℕ) (k : ℕ)
    (s : Store) (d : LPData) (h : lpGood y0 tm vm adj nc (s, d)) :
    lpGood y0 tm vm adj nc ((lpCall P k s d).store, (lpCall P k s d).d) ∧
      (∃ r, (lpCall P k s d).d.yRawRef = some r) ∧
      (d.yRawRef = none → (lpCall P k s d).restored = none) ∧
      ((∃ r, d.yRawRef = some r) → (lpCall P k s d).restored = some y0) ∧
      (lpCall P k s d).dInvDenoms = some (rowSums (inducedAdj adj (orMasks tm vm))) := by
  obtain ⟨h1, h2, h3, h4, h5, h6, h7, h8⟩ := h
  cases d with
  | mk yRef yRawRef tMask vMask dAdj dNc =>
    replace h1 : tMask = tm := h1
    replace h2 : vMask = vm := h2
    replace h3 : dAdj = adj := h3
    replace h4 : dNc = nc := h4
    replace h5 : yRef < s.length := h5
    replace h6 : ∀ i, nthD false (orMasks tm vm) i = false →
        nthD 0 (lookupS s yRef) i = nthD 0 y0 i := h6
    replace h7 : yRawRef = none → s = [y0] ∧ yRef = 0 := h7
    replace h8 : ∀ r, yRawRef = some r →
        r < s.length ∧ r ≠ yRef ∧ lookupS s r = y0 := h8
    replace h1 : tm = tMask := h1.symm
    subst h1
    replace h2 : vm = vMask := h2.symm
    subst h2
    replace h3 : adj = dAdj := h3.symm
    subst h3
    replace h4 : nc = dNc := h4.symm
    subst h4
    cases yRawRef with
    | none =>
      obtain ⟨hs, hy⟩ := h7 rfl
      replace hy : yRef = 0 := hy
      subst hs
      subst hy
      rw [lpCall_eq_none P e hP k [y0] 0 tm vm adj nc]
      rw [show lookupS [y0] 0 = y0 from rfl]
      rw [show ([y0] : Store) ++ [y0] = [y0, y0] from rfl]
      rw [show lookupS [y0, y0] 0 = y0 from rfl]
      rw [show ([y0] : Store).length = 1 from rfl]
      generalize lpPerturb P k e (inducedAdj adj (orMasks tm vm))
        (maskedSel y0 (orMasks tm vm)) nc = ns
      rw [show setS [y0, y0] 0 (maskedAssign y0 (orMasks tm vm) ns) =
        [maskedAssign y0 (orMasks tm vm) ns, y0] from rfl]
      refine ⟨⟨rfl, rfl, rfl, rfl, by simp, ?_, ?_, ?_⟩, ⟨1, rfl⟩,
        fun _ => rfl, ?_, rfl⟩
      · intro i hi
        exact maskedAssign_not_mask y0 (orMasks tm vm) ns i hi
      · intro hnone; exact Option.noConfusion hnone
      · intro r hr
        have hr1 : 1 = r := Option.some.inj hr
        subst hr1
        refine ⟨by simp, ?_, rfl⟩
        show 1 ≠ 0
        decide
      · rintro ⟨r, hr⟩; exact Option.noConfusion hr
    | some r =>
      obtain ⟨hr1, hr2, hr3⟩ := h8 r rfl
      rw [lpCall_eq_some P e hP k s yRef r tm vm adj nc, hr3, lookupS_append_len]
      generalize lpPerturb P k e (inducedAdj adj (orMasks tm vm))
        (maskedSel y0 (orMasks tm vm)) nc = ns
      have hlen2 : (s ++ [y0]).length = s.length + 1 := by simp
      refine ⟨⟨rfl, rfl, rfl, rfl, ?_, ?_, ?_, ?_⟩, ⟨r, rfl⟩,
        fun hnone => Option.noConfusion hnone, fun _ => rfl, rfl⟩
      · show s.length <
          (setS (s ++ [y0]) s.length (maskedAssign y0 (orMasks tm vm) ns)).length
        rw [setS_length, hlen2]
        omega
      · intro i hi
        show nthD 0
          (lookupS (setS (s ++ [y0]) s.length (maskedAssign y0 (orMasks tm vm) ns))
            s.length) i = nthD 0 y0 i
        rw [lookupS_setS_self _ _ _ (by rw [hlen2]; omega)]
        exact maskedAssign_not_mask y0 (orMasks tm vm) ns i hi
      · intro hnone; exact Option.noConfusion hnone
      · intro q hq
        have hqr : r = q := Option.some.inj hq
        subst hqr
        refine ⟨?_, ?_, ?_⟩
        · show r <
            (setS (s ++ [y0]) s.length (maskedAssign y0 (orMasks tm vm) ns)).length
          rw [setS_length, hlen2]
          omega
        · show r ≠ s.length
          omega
        · show lookupS (setS (s ++ [y0]) s.length (maskedAssign y0 (orMasks tm vm) ns))
            r = y0
          rw [lookupS_setS_ne _ _ _ _ (by omega), lookupS_append_lt _ _ _ hr1, hr3]

theorem lp_good_all (P : LPParams) (e : ℚ) (hP : P.epsY = some e)
    (y0 : List ℤ) (tm vm : List Bool) (adj : Mat) (nc : ℕ) :
    ∀ n : ℕ, lpGood y0 tm vm adj nc (lpSteps P [y0] (lpInitD tm vm adj nc) n) := by
  intro n
  induction n with
  | zero =>
    show lpGood y0 tm vm adj nc ([y0], lpInitD tm vm adj nc)
    refine ⟨rfl, rfl, rfl, rfl, by simp [lpInitD], fun i _ => rfl, fun _ => ⟨rfl, rfl⟩, ?_⟩
    intro r hr
    exact absurd hr (by simp [lpInitD])
  | succ k ih =>
    exact (lpCall_step P e hP y0 tm vm adj nc k
      (lpSteps P [y0] (lpInitD tm vm adj nc) k).1
      (lpSteps P [y0] (lpInitD tm vm adj nc) k).2 ih).1

theorem lp_yRaw_some (P : LPParams) (e : ℚ) (hP : P.epsY = some e)
    (y0 : List ℤ) (tm vm : List Bool) (adj : Mat) (nc : ℕ) (n : ℕ) :
    ∃ r, (lpSteps P [y0] (lpInitD tm vm adj nc) (n + 1)).2.yRawRef = some r :=
  (lpCall_step P e hP y0 tm vm adj nc n
    (lpSteps P [y0] (lpInitD tm vm adj nc) n).1
    (lpSteps P [y0] (lpInitD tm vm adj nc) n).2
    (lp_good_all P e hP y0 tm vm adj nc n)).2.1

/-- C6: with `epsilon_y` set, an invocation of `LabelPerturbation`
leaves the label of every node outside `train | val` (in particular
every test node, the masks being disjoint) exactly as it was before the
call, for every invocation in the lifetime of the instance. -/
theorem labelPerturbation_frame (P : LPParams) (e : ℚ) (hP : P.epsY = some e)
    (y0 : List ℤ) (tm vm : List Bool) (adj : Mat) (nc : ℕ) (n i : ℕ)
    (hi : nthD false (orMasks tm vm) i = false) :
    lpYVal (lpSteps P [y0] (lpInitD tm vm adj nc) (n + 1)) i =
      lpYVal (lpSteps P [y0] (lpInitD tm vm adj nc) n) i := by
  have ha := (lp_good_all P e hP y0 tm vm adj nc (n + 1)).2.2.2.2.2.1 i hi
  have hb := (lp_good_all P e hP y0 tm vm adj nc n).2.2.2.2.2.1 i hi
  unfold lpYVal
  rw [ha, hb]

/-- Witness for C6 at a concrete instance: node 1 is outside
`train | val` and its label is untouched by the first call. -/
theorem labelPerturbation_frame_witness :
    nthD false (orMasks [true, false] [false, false]) 1 = false ∧
      lpYVal (lpSteps (⟨some 1, fun _ _ _ l => l.map (fun _ => [1, 0]), 0⟩ : LPParams)
          [[5, 7]] (lpInitD [true, false] [false, false] [[0, 0], [0, 0]] 2) 1) 1 =
        lpYVal (lpSteps (⟨some 1, fun _ _ _ l => l.map (fun _ => [1, 0]), 0⟩ : LPParams)
          [[5, 7]] (lpInitD [true, false] [false, false] [[0, 0], [0, 0]] 2) 0) 1 :=
  ⟨by decide,
    labelPerturbation_frame _ 1 rfl [5, 7] [true, false] [false, false]
      [[0, 0], [0, 0]] 2 0 1 (by decide)⟩

/-- C10: with `epsilon_y` set, the pristine label snapshot `y_raw` is an
independent copy: after every number of invocations the backup cell
still holds exactly the initial labels (the masked write into `data.y`
never reaches it), and the labels restored at the start of every
invocation after the first are exactly the labels present before the
first invocation. -/
theorem labelPerturbation_clone_independent (P : LPParams) (e : ℚ) (hP : P.epsY = some e)
    (y0 : List ℤ) (tm vm : List Bool) (adj : Mat) (nc : ℕ) (n : ℕ) :
    (lpLog P [y0] (lpInitD tm vm adj nc) (n + 1)).restored = some y0 ∧
      ∃ r, (lpSteps P [y0] (lpInitD tm vm adj nc) (n + 1)).2.yRawRef = some r ∧
        lookupS (lpSteps P [y0] (lpInitD tm vm adj nc) (n + 1)).1 r = y0 := by
  have hg := lp_good_all P e hP y0 tm vm adj nc (n + 1)
  have hsome := lp_yRaw_some P e hP y0 tm vm adj nc n
  have hstep := lpCall_step P e hP y0 tm vm adj nc (n + 1)
    (lpSteps P [y0] (lpInitD tm vm adj nc) (n + 1)).1
    (lpSteps P [y0] (lpInitD tm vm adj nc) (n + 1)).2 hg
  refine ⟨hstep.2.2.2.1 hsome, ?_⟩
  obtain ⟨r, hr⟩ := hsome
  exact ⟨r, hr, (hg.2.2.2.2.2.2.2 r hr).2.2⟩

/-- Witness for C10 at a concrete instance: the second call restores
exactly the initial labels, and the backup cell still holds them. -/
theorem labelPerturbation_clone_independent_witness :
    (⟨some 1, fun _ _ _ l => l.map (fun _ => [1, 0]), 0⟩ : LPParams).epsY = some 1 ∧
      ((lpLog (⟨some 1, fun _ _ _ l => l.map (fun _ => [1, 0]), 0⟩ : LPParams)
          [[5, 7]] (lpInitD [true, false] [false, false] [[0, 0], [0, 0]] 2) 1).restored =
        some [5, 7] ∧
      ∃ r, (lpSteps (⟨some 1, fun _ _ _ l => l.map (fun _ => [1, 0]), 0⟩ : LPParams)
          [[5, 7]] (lpInitD [true, false] [false, false] [[0, 0], [0, 0]] 2) 1).2.yRawRef =
          some r ∧
        lookupS (lpSteps (⟨some 1, fun _ _ _ l => l.map (fun _ => [1, 0]), 0⟩ : LPParams)
          [[5, 7]] (lpInitD [true, false] [false, false] [[0, 0], [0, 0]] 2) 1).1 r =
          [5, 7]) :=
  ⟨rfl, labelPerturbation_clone_independent _ 1 rfl [5, 7] [true, false] [false, false]
    [[0, 0], [0, 0]] 2 0⟩

/-- C3 amended: `LabelPerturbation.perturb` does not guard the degree
normalization.  `D_inv` is built with diagonal values `1 / deg` directly
over the induced-subgraph row sums, so whenever some node of
`train | val` is isolated in the induced subgraph, every invocation
performs the division with a zero denominator (inf under IEEE floats); no
guard exists in the code. -/
theorem labelPerturbation_divzero_unguarded (P : LPParams) (e : ℚ) (hP : P.epsY = some e)
    (_hstep : 0 < P.lpStep) (y0 : List ℤ) (tm vm : List Bool) (adj : Mat) (nc : ℕ) (n : ℕ)
    (hiso : (0 : ℚ) ∈ rowSums (inducedAdj adj (orMasks tm vm))) :
    (lpLog P [y0] (lpInitD tm vm adj nc) n).dInvDenoms =
        some (rowSums (inducedAdj adj (orMasks tm vm))) ∧
      ∃ dens, (lpLog P [y0] (lpInitD tm vm adj nc) n).dInvDenoms = some dens ∧
        (0 : ℚ) ∈ dens := by
  have hstep5 := (lpCall_step P e hP y0 tm vm adj nc n
    (lpSteps P [y0] (lpInitD tm vm adj nc) n).1
    (lpSteps P [y0] (lpInitD tm vm adj nc) n).2
    (lp_good_all P e hP y0 tm vm adj nc n)).2.2.2.2
  exact ⟨hstep5, ⟨rowSums (inducedAdj adj (orMasks tm vm)), hstep5, hiso⟩⟩

/-- Witness for the amended C3: a 2-node graph whose only train node is
isolated inside the induced subgraph. -/
theorem labelPerturbation_divzero_unguarded_witness :
    (0 : ℚ) ∈ rowSums (inducedAdj [[0, 1], [1, 0]] (orMasks [true, false] [false, false])) ∧
      (lpLog (⟨some 1, fun _ _ _ l => l.map (fun _ => [1, 0]), 1⟩ : LPParams)
          [[0, 1]] (lpInitD [true, false] [false, false] [[0, 1], [1, 0]] 2) 0).dInvDenoms =
        some (rowSums (inducedAdj [[0, 1], [1, 0]] (orMasks [true, false] [false, false]))) := by
  have hiso : (0 : ℚ) ∈
      rowSums (inducedAdj [[0, 1], [1, 0]] (orMasks [true, false] [false, false])) := by
    norm_num [rowSums, inducedAdj, maskedSel, orMasks]
  exact ⟨hiso,
    (labelPerturbation_divzero_unguarded _ 1 rfl (by norm_num) [0, 1] [true, false]
      [false, false] [[0, 1], [1, 0]] 2 0 hiso).1⟩

/-- C3 counterexample: on a concrete dataset whose single train node is
isolated in the induced subgraph (`lp_step = 1`, `epsilon_y` set), the
denominators consumed by the `1 / deg` construction of `D_inv` in the
very first invocation are exactly `[0]` — the degree normalization is
reached with a zero denominator, refuting the claim that forming
`D_inv` never divides by zero. -/
theorem labelPerturbation_divzero_counterexample :
    (lpLog (⟨some 1, fun _ _ _ l => l.map (fun _ => [1, 0]), 1⟩ : LPParams)
        [[0, 1]] (lpInitD [true, false] [false, false] [[0, 1], [1, 0]] 2) 0).dInvDenoms =
      some [0] := by
  norm_num [lpLog, lpSteps, lpCall, lpInitD, orMasks, inducedAdj, maskedSel,
    rowSums, lookupS, nthD]

/-! ## NodeSplit lemmas -/

theorem scatterMask_length : ∀ e t : List Bool, (scatterMask e t).length = e.length := by
  intro e
  induction e with
  | nil => intro t; rfl
  | cons e0 es ih =>
    intro t
    cases e0 with
    | false => simpa [scatterMask] using ih t
    | true =>
      cases t with
      | nil => simpa [scatterMask] using ih []
      | cons b ts => simpa [scatterMask] using ih ts

theorem scatterMask_true_elig :
    ∀ (e t : List Bool) (i : ℕ), nthD false (scatterMask e t) i = true →
      nthD false e i = true := by
  intro e
  induction e with
  | nil => intro t i h; exact absurd h (by simp [scatterMask, nthD])
  | cons e0 es ih =>
    intro t i h
    cases e0 with
    | false =>
      cases i with
      | zero => exact absurd h (by simp [scatterMask, nthD])
      | succ i => exact ih t i h
    | true =>
      cases i with
      | zero => rfl
      | succ i =>
        cases t with
        | nil => exact ih [] i h
        | cons b ts => exact ih ts i h

theorem scatterMask_countTrue :
    ∀ e t : List Bool, t.length = countTrue e →
      countTrue (scatterMask e t) = countTrue t := by
  intro e
  induction e with
  | nil =>
    intro t ht
    have : t = [] := List.length_eq_zero.mp ht
    subst this
    rfl
  | cons e0 es ih =>
    intro t ht
    cases e0 with
    | false =>
      have ht2 : t.length = countTrue es := by
        simpa [countTrue, List.countP_cons] using ht
      show countTrue (false :: scatterMask es t) = countTrue t
      simpa [countTrue, List.countP_cons] using ih t ht2
    | true =>
      cases t with
      | nil =>
        exfalso
        have h2 : countTrue (true :: es) = countTrue es + 1 := by
          simp [countTrue, List.countP_cons]
        have h3 : countTrue (true :: es) = 0 := by
          rw [← ht]
          rfl
        rw [h3] at h2
        exact Nat.succ_ne_zero _ h2.symm
      | cons b ts =>
        have ht2 : ts.length = countTrue es := by
          have hx := ht
          simp [countTrue, List.countP_cons] at hx ⊢
          omega
        show countTrue (b :: scatterMask es ts) = countTrue (b :: ts)
        simp only [countTrue, List.countP_cons]
        rw [show (scatterMask es ts).countP (fun b => b) = countTrue (scatterMask es ts)
          from rfl, ih ts ht2]
        rfl

theorem scatterMask_both :
    ∀ (e t1 t2 : List Bool) (i : ℕ), t1.length = t2.length →
      nthD false (scatterMask e t1) i = true →
      nthD false (scatterMask e t2) i = true →
      ∃ j, nthD false t1 j = true ∧ nthD false t2 j = true := by
  intro e
  induction e with
  | nil => intro t1 t2 i _ h1 _; exact absurd h1 (by simp [scatterMask, nthD])
  | cons e0 es ih =>
    intro t1 t2 i hlen h1 h2
    cases e0 with
    | false =>
      cases i with
      | zero => exact absurd h1 (by simp [scatterMask, nthD])
      | succ i => exact ih t1 t2 i hlen h1 h2
    | true =>
      cases t1 with
      | nil =>
        cases t2 with
        | nil =>
          cases i with
          | zero => exact absurd h1 (by simp [scatterMask, nthD])
          | succ i => exact ih [] [] i rfl h1 h2
        | cons b2 ts2 => simp at hlen
      | cons b1 ts1 =>
        cases t2 with
        | nil => simp at hlen
        | cons b2 ts2 =>
          cases i with
          | zero => exact ⟨0, h1, h2⟩
          | succ i =>
            obtain ⟨j, hj1, hj2⟩ := ih ts1 ts2 i (by simpa using hlen) h1 h2
            exact ⟨j + 1, hj1, hj2⟩

theorem tempMask_length (idxs : List ℕ) (n : ℕ) : (tempMask idxs n).length = n := by
  simp [tempMask]

theorem tempMask_nthD (idxs : List ℕ) (n i : ℕ) :
    nthD false (tempMask idxs n) i = true ↔ (i < n ∧ i ∈ idxs) := by
  unfold tempMask
  rw [nthD_map_range false n (fun j => decide (j ∈ idxs)) i]
  by_cases hi : i < n
  · simp [hi]
  · simp [hi]

theorem tempMask_countTrue (idxs : List ℕ) (n : ℕ) (hnd : idxs.Nodup)
    (hlt : ∀ i ∈ idxs, i < n) : countTrue (tempMask idxs n) = idxs.length := by
  unfold tempMask countTrue
  rw [List.countP_map]
  have hfil : (List.range n).countP ((fun b => b) ∘ fun i => decide (i ∈ idxs)) =
      ((List.range n).filter (fun i => decide (i ∈ idxs))).length := by
    rw [List.countP_eq_length_filter]
    rfl
  rw [hfil]
  have hperm : List.Perm ((List.range n).filter (fun i => decide (i ∈ idxs))) idxs := by
    rw [List.perm_ext_iff_of_nodup (List.Nodup.filter _ (List.nodup_range n)) hnd]
    intro a
    simp only [List.mem_filter, List.mem_range, decide_eq_true_eq]
    exact ⟨fun h => h.2, fun h => ⟨hlt a h, h⟩⟩
  exact hperm.length_eq

theorem tempMask_disjoint (idxs1 idxs2 : List ℕ) (n : ℕ)
    (hd : List.Disjoint idxs1 idxs2) (j : ℕ) :
    ¬(nthD false (tempMask idxs1 n) j = true ∧ nthD false (tempMask idxs2 n) j = true) := by
  rintro ⟨h1, h2⟩
  have m1 := (tempMask_nthD idxs1 n j).mp h1
  have m2 := (tempMask_nthD idxs2 n j).mp h2
  exact hd m1.2 m2.2

theorem eligMask_length (y : List ℤ) (N : ℕ) (hlen : y.length = N) :
    (eligMask y N).length = N := by
  unfold eligMask
  by_cases hc : y.contains (-1) = true
  · rw [if_pos hc, List.length_map, hlen]
  · rw [if_neg hc, List.length_replicate]

theorem eligMask_valid (y : List ℤ) (N i : ℕ) (hlen : y.length = N) (hi : i < N)
    (he : nthD false (eligMask y N) i = true) : nthD 0 y i ≠ -1 := by
  unfold eligMask at he
  by_cases hc : y.contains (-1) = true
  · rw [if_pos hc] at he
    rw [nthD_map_lt false (fun v => decide (v ≠ -1)) 0 y i (hlen ▸ hi)] at he
    exact of_decide_eq_true he
  · rw [if_neg hc] at he
    have hmem : nthD 0 y i ∈ y := nthD_mem 0 y i (hlen ▸ hi)
    intro hbad
    rw [hbad] at hmem
    exact hc (List.elem_eq_true_of_mem hmem)

/-- C7 amended: for every dataset and permutation of the eligible
population, `NodeSplit` produces three boolean masks of length `N`,
pairwise disjoint, whose union only covers nodes with a valid
(non-sentinel) label; and provided the three floor counts sum to at most
the number `n` of labeled nodes (as whenever the ratios sum to at most
1), it assigns exactly `int(train_ratio * n)`, `int(val_ratio * n)` and
`int(test_ratio * n)` nodes to the three masks.  (Without that proviso
the later permutation slices are truncated and receive fewer nodes than
the claim states, see the counterexample.) -/
theorem nodeSplit_spec (y : List ℤ) (N : ℕ) (tf vf sf : ℚ) (perm : List ℕ)
    (hlen : y.length = N)
    (hnd : perm.Nodup)
    (hmem : ∀ i ∈ perm, i < nClass y N)
    (hplen : perm.length = nClass y N)
    (hsum : splitCount tf (nClass y N) + splitCount vf (nClass y N) +
      splitCount sf (nClass y N) ≤ nClass y N) :
    ((nodeSplit y N tf vf sf perm).train.length = N ∧
      (nodeSplit y N tf vf sf perm).val.length = N ∧
      (nodeSplit y N tf vf sf perm).test.length = N) ∧
    (∀ i, ¬(nthD false (nodeSplit y N tf vf sf perm).train i = true ∧
      nthD false (nodeSplit y N tf vf sf perm).val i = true)) ∧
    (∀ i, ¬(nthD false (nodeSplit y N tf vf sf perm).train i = true ∧
      nthD false (nodeSplit y N tf vf sf perm).test i = true)) ∧
    (∀ i, ¬(nthD false (nodeSplit y N tf vf sf perm).val i = true ∧
      nthD false (nodeSplit y N tf vf sf perm).test i = true)) ∧
    (∀ i, i < N →
      (nthD false (nodeSplit y N tf vf sf perm).train i = true ∨
        nthD false (nodeSplit y N tf vf sf perm).val i = true ∨
        nthD false (nodeSplit y N tf vf sf perm).test i = true) →
      nthD 0 y i ≠ -1) ∧
    countTrue (nodeSplit y N tf vf sf perm).train = splitCount tf (nClass y N) ∧
    countTrue (nodeSplit y N tf vf sf perm).val = splitCount vf (nClass y N) ∧
    countTrue (nodeSplit y N tf vf sf perm).test = splitCount sf (nClass y N) := by
  have hsplit : nodeSplit y N tf vf sf perm =
      ⟨scatterMask (eligMask y N)
          (tempMask (perm.take (splitCount tf (nClass y N))) (nClass y N)),
        scatterMask (eligMask y N)
          (tempMask ((perm.drop (splitCount tf (nClass y N))).take
            (splitCount vf (nClass y N))) (nClass y N)),
        scatterMask (eligMask y N)
          (tempMask ((perm.drop (splitCount tf (nClass y N) +
            splitCount vf (nClass y N))).take (splitCount sf (nClass y N)))
            (nClass y N))⟩ := rfl
  rw [hsplit]
  set n := nClass y N with hndef
  set a := splitCount tf n with hadef
  set b := splitCount vf n with hbdef
  set c := splitCount sf n with hcdef
  set elig := eligMask y N with heligdef
  set trN := perm.take a with htrNdef
  set vaN := (perm.drop a).take b with hvaNdef
  set teN := (perm.drop (a + b)).take c with hteNdef
  have hce : countTrue elig = n := rfl
  have hTrLen : trN.length = a := by
    rw [htrNdef, List.length_take, hplen]; omega
  have hVaLen : vaN.length = b := by
    rw [hvaNdef, List.length_take, List.length_drop, hplen]; omega
  have hTeLen : teN.length = c := by
    rw [hteNdef, List.length_take, List.length_drop, hplen]; omega
  have hTrSub : ∀ j ∈ trN, j ∈ perm := fun j hj => List.take_subset _ _ hj
  have hVaSub : ∀ j ∈ vaN, j ∈ perm :=
    fun j hj => List.drop_subset _ _ (List.take_subset _ _ hj)
  have hTeSub : ∀ j ∈ teN, j ∈ perm :=
    fun j hj => List.drop_subset _ _ (List.take_subset _ _ hj)
  have hTrNd : trN.Nodup := hnd.sublist (List.take_sublist _ _)
  have hVaNd : vaN.Nodup := (hnd.sublist (List.drop_sublist _ _)).sublist
    (List.take_sublist _ _)
  have hTeNd : teN.Nodup := (hnd.sublist (List.drop_sublist _ _)).sublist
    (List.take_sublist _ _)
  have hDtv : List.Disjoint trN vaN := by
    intro x hx hy
    exact (List.disjoint_take_drop hnd (le_refl a)) hx (List.take_subset _ _ hy)
  have hDts : List.Disjoint trN teN := by
    intro x hx hy
    exact (List.disjoint_take_drop hnd (Nat.le_add_right a b)) hx
      (List.take_subset _ _ hy)
  have hDvs : List.Disjoint vaN teN := by
    intro x hx hy
    have hx2 : x ∈ (perm.drop a).take b := hx
    have hy2 : x ∈ (perm.drop a).drop b := by
      rw [List.drop_drop]
      exact List.take_subset _ _ hy
    exact (List.disjoint_take_drop (hnd.sublist (List.drop_sublist _ _))
      (le_refl b)) hx2 hy2
  have htlen : ∀ idxs : List ℕ, (tempMask idxs n).length = countTrue elig := by
    intro idxs; rw [tempMask_length]; exact hce.symm
  refine ⟨⟨?_, ?_, ?_⟩, ?_, ?_, ?_, ?_, ?_, ?_, ?_⟩
  · exact (scatterMask_length _ _).trans (eligMask_length y N hlen)
  · exact (scatterMask_length _ _).trans (eligMask_length y N hlen)
  · exact (scatterMask_length _ _).trans (eligMask_length y N hlen)
  · rintro i ⟨h1, h2⟩
    obtain ⟨j, hj1, hj2⟩ := scatterMask_both elig _ _ i
      (by rw [tempMask_length, tempMask_length]) h1 h2
    exact hDtv ((tempMask_nthD _ _ _).mp hj1).2 ((tempMask_nthD _ _ _).mp hj2).2
  · rintro i ⟨h1, h2⟩
    obtain ⟨j, hj1, hj2⟩ := scatterMask_both elig _ _ i
      (by rw [tempMask_length, tempMask_length]) h1 h2
    exact hDts ((tempMask_nthD _ _ _).mp hj1).2 ((tempMask_nthD _ _ _).mp hj2).2
  · rintro i ⟨h1, h2⟩
    obtain ⟨j, hj1, hj2⟩ := scatterMask_both elig _ _ i
      (by rw [tempMask_length, tempMask_length]) h1 h2
    exact hDvs ((tempMask_nthD _ _ _).mp hj1).2 ((tempMask_nthD _ _ _).mp hj2).2
  · intro i hiN hor
    rcases hor with h | h | h
    · exact eligMask_valid y N i hlen hiN (scatterMask_true_elig elig _ i h)
    · exact eligMask_valid y N i hlen hiN (scatterMask_true_elig elig _ i h)
    · exact eligMask_valid y N i hlen hiN (scatterMask_true_elig elig _ i h)
  · rw [scatterMask_countTrue elig _ (htlen trN),
      tempMask_countTrue trN n hTrNd (fun i hi => hmem i (hTrSub i hi))]
    exact hTrLen
  · rw [scatterMask_countTrue elig _ (htlen vaN),
      tempMask_countTrue vaN n hVaNd (fun i hi => hmem i (hVaSub i hi))]
    exact hVaLen
  · rw [scatterMask_countTrue elig _ (htlen teN),
      tempMask_countTrue teN n hTeNd (fun i hi => hmem i (hTeSub i hi))]
    exact hTeLen

/-- Witness for the amended C7: 4 nodes, one unlabeled, ratios
(1/2, 1/4, 1/4), a concrete permutation of the 3 eligible nodes. -/
theorem nodeSplit_spec_witness :
    (∀ i ∈ ([2, 0, 1] : List ℕ), i < nClass [0, -1, 1, 2] 4) ∧
      countTrue (nodeSplit [0, -1, 1, 2] 4 (1 / 2) (1 / 4) (1 / 4) [2, 0, 1]).train =
        splitCount (1 / 2) (nClass [0, -1, 1, 2] 4) :=
  ⟨by decide,
    (nodeSplit_spec [0, -1, 1, 2] 4 (1 / 2) (1 / 4) (1 / 4) [2, 0, 1]
      (by decide) (by decide) (by decide) (by decide)
      (by norm_num [splitCount, nClass, eligMask, countTrue])).2.2.2.2.2.1⟩

/-- C7 counterexample: with ratios (1, 1/2, 1/2) on 2 labeled nodes the
floor counts are 2, 1 and 1, but the val slice `perm[2:3]` of the
length-2 permutation is empty, so the val mask receives 0 nodes instead
of the `int(val_ratio * n) = 1` the claim demands for every ratio
configuration. -/
theorem nodeSplit_count_counterexample :
    countTrue (nodeSplit [0, 0] 2 1 (1 / 2) (1 / 2) [0, 1]).val ≠
      splitCount (1 / 2) (nClass [0, 0] 2) := by
  have hval : countTrue (nodeSplit [0, 0] 2 1 (1 / 2) (1 / 2) [0, 1]).val = 0 := by
    have h2 : nClass [0, 0] 2 = 2 := by decide
    have hsc1 : splitCount 1 (nClass [0, 0] 2) = 2 := by
      rw [h2]
      norm_num [splitCount]
      try decide
    have hsc2 : splitCount (1 / 2) (nClass [0, 0] 2) = 1 := by
      rw [h2]
      norm_num [splitCount]
      try decide
    have hsplit : nodeSplit [0, 0] 2 1 (1 / 2) (1 / 2) [0, 1] =
        ⟨scatterMask (eligMask [0, 0] 2)
            (tempMask (([0, 1] : List ℕ).take (splitCount 1 (nClass [0, 0] 2)))
              (nClass [0, 0] 2)),
          scatterMask (eligMask [0, 0] 2)
            (tempMask ((([0, 1] : List ℕ).drop (splitCount 1 (nClass [0, 0] 2))).take
              (splitCount (1 / 2) (nClass [0, 0] 2))) (nClass [0, 0] 2)),
          scatterMask (eligMask [0, 0] 2)
            (tempMask ((([0, 1] : List ℕ).drop (splitCount 1 (nClass [0, 0] 2) +
              splitCount (1 / 2) (nClass [0, 0] 2))).take
              (splitCount (1 / 2) (nClass [0, 0] 2))) (nClass [0, 0] 2))⟩ := rfl
    rw [hsplit]
    show countTrue (scatterMask (eligMask [0, 0] 2)
      (tempMask ((([0, 1] : List ℕ).drop (splitCount 1 (nClass [0, 0] 2))).take
        (splitCount (1 / 2) (nClass [0, 0] 2))) (nClass [0, 0] 2))) = 0
    rw [hsc1, hsc2, h2]
    decide
  rw [hval]
  have hsc2 : splitCount (1 / 2) (nClass [0, 0] 2) = 1 := by
    have h2 : nClass [0, 0] 2 = 2 := by decide
    rw [h2]
    norm_num [splitCount]
    try decide
  rw [hsc2]
  decide

/-! ## Normalize lemmas -/

theorem foldl_min_le_init : ∀ (t : List ℚ) (a : ℚ), t.foldl min a ≤ a := by
  intro t
  induction t with
  | nil => intro a; exact le_refl a
  | cons b tt ih =>
    intro a
    exact le_trans (ih (min a b)) (min_le_left a b)

theorem foldl_min_le_mem : ∀ (t : List ℚ) (a x : ℚ), x ∈ t → t.foldl min a ≤ x := by
  intro t
  induction t with
  | nil => intro a x hx; exact absurd hx (List.not_mem_nil x)
  | cons b tt ih =>
    intro a x hx
    rcases List.mem_cons.mp hx with h | h
    · subst h
      exact le_trans (foldl_min_le_init tt (min a x)) (min_le_right a x)
    · exact ih (min a b) x h

theorem listMinD_le (l : List ℚ) (x : ℚ) (hx : x ∈ l) : listMinD l ≤ x := by
  cases l with
  | nil => exact absurd hx (List.not_mem_nil x)
  | cons a t =>
    rcases List.mem_cons.mp hx with h | h
    · subst h
      exact foldl_min_le_init t x
    · exact foldl_min_le_mem t a x h

theorem le_foldl_max_init : ∀ (t : List ℚ) (a : ℚ), a ≤ t.foldl max a := by
  intro t
  induction t with
  | nil => intro a; exact le_refl a
  | cons b tt ih =>
    intro a
    exact le_trans (le_max_left a b) (ih (max a b))

theorem mem_le_foldl_max : ∀ (t : List ℚ) (a x : ℚ), x ∈ t → x ≤ t.foldl max a := by
  intro t
  induction t with
  | nil => intro a x hx; exact absurd hx (List.not_mem_nil x)
  | cons b tt ih =>
    intro a x hx
    rcases List.mem_cons.mp hx with h | h
    · subst h
      exact le_trans (le_max_right a x) (le_foldl_max_init tt (max a x))
    · exact ih (max a b) x h

theorem le_listMaxD (l : List ℚ) (x : ℚ) (hx : x ∈ l) : x ≤ listMaxD l := by
  cases l with
  | nil => exact absurd hx (List.not_mem_nil x)
  | cons a t =>
    rcases List.mem_cons.mp hx with h | h
    · subst h
      exact le_foldl_max_init t x
    · exact mem_le_foldl_max t a x h

/-- C8: the column indices kept by `Normalize` are exactly those with
nonzero per-dimension range (zero-range input columns are absent from
the output), and with a sensible target range every value of the output
matrix lies in `[low, high]` — each kept column is min-max rescaled into
the target interval. -/
theorem normalize_spec (low high : ℚ) (m : Mat) (hlh : low ≤ high) :
    (∀ j, j ∈ normKeep m ↔ (j < normD m ∧ normDelta m j ≠ 0)) ∧
      ∀ row ∈ normalizeX low high m, ∀ v ∈ row, low ≤ v ∧ v ≤ high := by
  constructor
  · intro j
    unfold normKeep
    simp only [List.mem_filter, List.mem_range, decide_eq_true_eq]
  · intro row hrow v hv
    unfold normalizeX at hrow
    obtain ⟨srow, hsrow, rfl⟩ := List.mem_map.mp hrow
    unfold normScaled at hsrow
    obtain ⟨r, hr, rfl⟩ := List.mem_map.mp hsrow
    obtain ⟨j, hj, rfl⟩ := List.mem_map.mp hv
    have hjprop : j < normD m ∧ normDelta m j ≠ 0 := by
      have := hj
      unfold normKeep at this
      simpa only [List.mem_filter, List.mem_range, decide_eq_true_eq] using this
    obtain ⟨hjD, hjδ⟩ := hjprop
    rw [nthD_map_range 0 (normD m) _ j, if_pos hjD]
    have hmem : nthD 0 r j ∈ colOf m j :=
      List.mem_map.mpr ⟨r, hr, rfl⟩
    have hα : colMin m j ≤ nthD 0 r j := listMinD_le (colOf m j) _ hmem
    have hβ : nthD 0 r j ≤ colMax m j := le_listMaxD (colOf m j) _ hmem
    have hδnn : 0 ≤ normDelta m j := by
      unfold normDelta
      linarith
    have hδpos : 0 < normDelta m j := lt_of_le_of_ne hδnn (Ne.symm hjδ)
    have hvδ : nthD 0 r j - colMin m j ≤ normDelta m j := by
      unfold normDelta
      linarith
    constructor
    · have hnum : 0 ≤ (nthD 0 r j - colMin m j) * (high - low) :=
        mul_nonneg (by linarith) (by linarith)
      have := div_nonneg hnum (le_of_lt hδpos)
      linarith
    · have hnum : (nthD 0 r j - colMin m j) * (high - low) ≤
          normDelta m j * (high - low) :=
        mul_le_mul_of_nonneg_right hvδ (by linarith)
      have hdiv : (nthD 0 r j - colMin m j) * (high - low) / normDelta m j ≤
          normDelta m j * (high - low) / normDelta m j :=
        (div_le_div_iff_of_pos_right hδpos).mpr hnum
      rw [mul_div_cancel_left₀ _ hjδ] at hdiv
      linarith [hdiv]

/-- Witness for C8: a concrete 2 x 2 matrix with one constant and one
varying column, target range [0, 2]. -/
theorem normalize_spec_witness :
    ((0 : ℚ) ≤ 2) ∧
      (∀ j, j ∈ normKeep [[0, 5], [1, 5]] ↔
        (j < normD [[0, 5], [1, 5]] ∧ normDelta [[0, 5], [1, 5]] j ≠ 0)) ∧
      ∀ row ∈ normalizeX 0 2 [[0, 5], [1, 5]], ∀ v ∈ row, 0 ≤ v ∧ v ≤ 2 :=
  ⟨by norm_num, (normalize_spec 0 2 [[0, 5], [1, 5]] (by norm_num)).1,
    (normalize_spec 0 2 [[0, 5], [1, 5]] (by norm_num)).2⟩

/-- Witness for C9 at a concrete instance: the mechanism of the third
call still receives the pristine range (1, 4). -/
theorem featurePerturbation_frozen_range_witness :
    (⟨some 1, none, fun _ _ _ m => m.map (fun row => row.map (fun v => v + 7)), fun _ => []⟩ :
        FPParams).epsX = some 1 ∧
      ((fpLog (⟨some 1, none, fun _ _ _ m => m.map (fun row => row.map (fun v => v + 7)),
            fun _ => []⟩ : FPParams) ⟨none⟩ ⟨[[1, 4]], none⟩ 2).rangeArg =
          some (matMinQ [[1, 4]], matMaxQ [[1, 4]]) ∧
        (fpSteps (⟨some 1, none, fun _ _ _ m => m.map (fun row => row.map (fun v => v + 7)),
            fun _ => []⟩ : FPParams) ⟨none⟩ ⟨[[1, 4]], none⟩ 3).1.inputRange =
          some (matMinQ [[1, 4]], matMaxQ [[1, 4]])) :=
  ⟨rfl, featurePerturbation_frozen_range _ 1 rfl [[1, 4]] 2⟩

end LPGNN
